import Mathlib

/-!
Verification of the noteban incremental note-cache and tag-filter engine.

The definitions below are a shallow embedding of the TypeScript sources:

* `src/utils/tagFilter.ts` (`matchesTagFilter`, `extractTags`)
* `src/utils/tagFilterParser.ts` (`parseTagFilterExpression`,
  `tagFilterToString`, and the filter mutation helpers)
* `src/stores/notesStore.ts` (`processFileChanges` merge step, `loadNotes`)

Text is modeled as `List Char` (JavaScript strings are sequences of code
units; all inputs considered here are ASCII, where `Char.isAlpha`,
`Char.isDigit`, `Char.toLower`, `Char.toUpper` and `Char.isWhitespace`
agree with the JavaScript notions used by the regexes, `toUpperCase`,
`toLowerCase` and `trim`).  The `modified` timestamp of a note is modeled
by the integer `new Date(s).getTime()` that the sort comparator computes
from it.  JavaScript `Map`s are modeled as insertion-ordered association
lists with the `set`/`delete` semantics spelled out below.
-/

namespace Noteban

/-- `TagFilterOperator` from `src/types/tagFilter.ts`: `'AND' | 'OR'`. -/
inductive TagOp where
  | AND : TagOp
  | OR : TagOp
deriving DecidableEq, Repr

/-- `TagFilter` from `src/types/tagFilter.ts`. -/
structure TagFilter where
  tags : List String
  operators : List TagOp
deriving DecidableEq, Repr

/-- One step of the evaluation loop of `matchesTagFilter`
(`for (let i = 1; i < filter.tags.length; i++) ...`): `i` is the loop
index, `result` the accumulator; `filter.operators[i - 1] || 'AND'` is
modeled by `getD` with default `AND` (the strings `'AND'`/`'OR'` are
truthy, an out-of-bounds read gives `undefined`, which is falsy). -/
def matchLoop (noteTags : List String) (ops : List TagOp) :
    Bool → Nat → List String → Bool
  | result, _, [] => result
  | result, i, t :: ts =>
    let op := ops.getD (i - 1) TagOp.AND
    let tagMatch := noteTags.contains t
    matchLoop noteTags ops
      (match op with
       | TagOp.AND => result && tagMatch
       | TagOp.OR => result || tagMatch) (i + 1) ts

/-- `matchesTagFilter` from `src/utils/tagFilter.ts`. -/
def matchesTagFilter (noteTags : List String) (filter : TagFilter) : Bool :=
  match filter.tags with
  | [] => true
  | t :: ts => matchLoop noteTags filter.operators (noteTags.contains t) 1 ts

/-- Combining a running result with a tag-membership test using one
operator, as the spec describes it. -/
def applyOp (op : TagOp) (a b : Bool) : Bool :=
  match op with
  | TagOp.AND => a && b
  | TagOp.OR => a || b

/-- Spec-side description of filter evaluation (section 4.5 of the spec):
a strict left-to-right fold that starts from membership of `tags[0]` and
combines membership of `tags[i]` using `operators[i-1]`. -/
def evalLeftFold (noteTags : List String) (filter : TagFilter) : Bool :=
  match filter.tags with
  | [] => true
  | t :: ts =>
    (ts.zip filter.operators).foldl
      (fun r p => applyOp p.2 r (noteTags.contains p.1))
      (noteTags.contains t)

/-- JavaScript `\w`: `[A-Za-z0-9_]` (Lean's `Char.isAlpha`/`Char.isDigit`
are exactly the ASCII classes). -/
def isWordChar (c : Char) : Bool :=
  c.isAlpha || c.isDigit || c = '_'

/-- The character class `[\w-]` of the tag token regex
`/#([\w-]+)/g` in `parseTagFilterExpression`. -/
def isFilterTagChar (c : Char) : Bool :=
  isWordChar c || c = '-'

/-- JavaScript `String.prototype.trim` on ASCII text. -/
def trimChars (l : List Char) : List Char :=
  ((l.dropWhile Char.isWhitespace).reverse.dropWhile Char.isWhitespace).reverse

/-- JavaScript `toUpperCase` on ASCII text. -/
def toUpperChars (l : List Char) : List Char :=
  l.map Char.toUpper

/-- The token scan of `parseTagFilterExpression`: repeated
`tagRegex.exec(trimmed)` for `tagRegex = /#([\w-]+)/g`, keeping for every
match both the captured tag and the slice
`trimmed.slice(lastIndex, match.index)` of text between the end of the
previous match and this match (the code consults that slice to infer the
operator).  `acc` holds the pending between-slice in reverse.  A `#` not
followed by a `[\w-]` character matches nothing and the scan moves on; a
match consumes the maximal run of `[\w-]` characters (greedy `+`). -/
def scanFilterTokens : List Char → List Char → List (List Char × List Char)
  | _, [] => []
  | acc, c :: cs =>
    if c = '#' then
      match cs with
      | [] => []
      | d :: ds =>
        if isFilterTagChar d then
          (acc.reverse, (d :: ds).takeWhile isFilterTagChar) ::
            scanFilterTokens [] ((d :: ds).dropWhile isFilterTagChar)
        else scanFilterTokens ('#' :: acc) (d :: ds)
    else scanFilterTokens (c :: acc) cs
termination_by _ l => l.length
decreasing_by
  all_goals simp_wf
  all_goals
    first
      | omega
      | (have hdw := (@List.dropWhile_sublist Char (d :: ds)
            isFilterTagChar).length_le
         simp at hdw ⊢
         omega)

/-- Operator inference of `parseTagFilterExpression`:
`between.includes(' OR ') || between.trim() === 'OR'` on the uppercased
between-slice selects `OR`, everything else defaults to `AND`. -/
def inferOp (between : List Char) : TagOp :=
  let up := toUpperChars between
  if " OR ".data <:+: up then TagOp.OR
  else if trimChars up = "OR".data then TagOp.OR
  else TagOp.AND

/-- The raw (pre-deduplication) `tags` and `operators` lists that the
tokenize loop of `parseTagFilterExpression` builds: one tag per match,
and for every match after the first one operator inferred from the
between-slice. -/
def rawTagsOps (trimmed : List Char) : List String × List TagOp :=
  match scanFilterTokens [] trimmed with
  | [] => ([], [])
  | (_, t0) :: rest =>
    (String.mk t0 :: rest.map (fun p => String.mk p.2),
     rest.map (fun p => inferOp p.1))

/-- The duplicate-removal loop of `parseTagFilterExpression`
(`for (let i = 0; i < tags.length; i++) ...`).  The first argument list
is the not-yet-visited suffix of `tags`; `i` is the loop index, used to
read `operators[i - 1]` (in the only call the operator list has exactly
`tags.length - 1` entries, so the `getD` default is never consulted
there).  `seen` is the JS `Set` of visited tags, `uniqueTags` and
`uniqueOperators` the output accumulators. -/
def dedupLoop (ops : List TagOp) :
    List String → Nat → List String → List String → List TagOp →
      List String × List TagOp
  | [], _, _, uniqueTags, uniqueOperators => (uniqueTags, uniqueOperators)
  | t :: rest, i, seen, uniqueTags, uniqueOperators =>
    if seen.contains t then
      dedupLoop ops rest (i + 1) seen uniqueTags uniqueOperators
    else
      dedupLoop ops rest (i + 1) (seen ++ [t]) (uniqueTags ++ [t])
        (if 0 < uniqueTags.length ∧ 0 < i then
          uniqueOperators ++ [ops.getD (i - 1) TagOp.AND]
         else uniqueOperators)

/-- `parseTagFilterExpression` from `src/utils/tagFilterParser.ts`.
Returns `none` for empty/whitespace-only input (`!input || !input.trim()`)
and for input containing no tag token. -/
def parseTagFilterExpression (input : String) : Option TagFilter :=
  if trimChars input.data = [] then none
  else
    match rawTagsOps (trimChars input.data) with
    | ([], _) => none
    | (tags, operators) =>
      some ⟨(dedupLoop operators tags 0 [] [] []).1,
            (dedupLoop operators tags 0 [] [] []).2⟩

/-- `opToString`: the string interpolation of a `TagFilterOperator`. -/
def opToString : TagOp → String
  | TagOp.AND => "AND"
  | TagOp.OR => "OR"

/-- The accumulation loop of `tagFilterToString`
(`for (let i = 1; ...) result += ` + an ` OP #tag` segment); `i` is the
loop index for the `filter.operators[i - 1] || 'AND'` read. -/
def tagFilterToStringLoop (ops : List TagOp) : Nat → List String → String
  | _, [] => ""
  | i, t :: ts =>
    " " ++ opToString (ops.getD (i - 1) TagOp.AND) ++ " #" ++ t ++
      tagFilterToStringLoop ops (i + 1) ts

/-- `tagFilterToString` from `src/utils/tagFilterParser.ts`. -/
def tagFilterToString (filter : TagFilter) : String :=
  match filter.tags with
  | [] => ""
  | t :: ts => "#" ++ t ++ tagFilterToStringLoop filter.operators 1 ts

/-- `createSingleTagFilter` from `src/utils/tagFilterParser.ts`. -/
def createSingleTagFilter (tag : String) : TagFilter :=
  ⟨[tag], []⟩

/-- `createEmptyTagFilter` from `src/utils/tagFilterParser.ts`. -/
def createEmptyTagFilter : TagFilter :=
  ⟨[], []⟩

/-- `addTagToFilter` from `src/utils/tagFilterParser.ts`. -/
def addTagToFilter (filter : TagFilter) (tag : String) (operator : TagOp) :
    TagFilter :=
  if filter.tags.contains tag then filter
  else
    ⟨filter.tags ++ [tag],
     if 0 < filter.tags.length then filter.operators ++ [operator] else []⟩

/-- `removeTagFromFilter` from `src/utils/tagFilterParser.ts`:
`indexOf`/`splice` become `findIdx?`/`eraseIdx`. -/
def removeTagFromFilter (filter : TagFilter) (tag : String) : TagFilter :=
  match filter.tags.findIdx? (fun t => t == tag) with
  | none => filter
  | some index =>
    ⟨filter.tags.eraseIdx index,
     if 0 < filter.operators.length then
       if index = 0 then filter.operators.eraseIdx 0
       else filter.operators.eraseIdx (index - 1)
     else filter.operators⟩

/-- `toggleTagInFilter` from `src/utils/tagFilterParser.ts`. -/
def toggleTagInFilter (filter : TagFilter) (tag : String) (operator : TagOp) :
    TagFilter :=
  if filter.tags.contains tag then removeTagFromFilter filter tag
  else addTagToFilter filter tag operator

/-- `setOperatorAtIndex` from `src/utils/tagFilterParser.ts` (the
`index < 0` guard of the source is vacuous for a `Nat` index). -/
def setOperatorAtIndex (filter : TagFilter) (index : Nat) (operator : TagOp) :
    TagFilter :=
  if index < filter.operators.length then
    ⟨filter.tags, filter.operators.set index operator⟩
  else filter

/-- First character class of the hashtag regex
`/(?:^|[^a-zA-Z0-9])#([a-zA-Z][a-zA-Z0-9_-]*)/g` in `extractTags`. -/
def isTagStartChar (c : Char) : Bool :=
  c.isAlpha

/-- Continuation class `[a-zA-Z0-9_-]` of the hashtag regex. -/
def isTagBodyChar (c : Char) : Bool :=
  c.isAlpha || c.isDigit || c = '_' || c = '-'

/-- The class `[a-zA-Z0-9]` (note: underscore is not in it). -/
def isAlnumChar (c : Char) : Bool :=
  c.isAlpha || c.isDigit

/-- The backtick character. -/
def backtickChar : Char :=
  "`".data.headD ' '

/-- First index at which `pat` occurs as a contiguous substring
(`none` when it does not occur). -/
def findSub (pat : List Char) : List Char → Option Nat
  | [] => if pat.isEmpty then some 0 else none
  | c :: cs =>
    if pat.isPrefixOf (c :: cs) then some 0
    else (findSub pat cs).map (fun n => n + 1)

/-- The frontmatter strip of `extractTags`:
`content.replace(/^---[\s\S]*?---\n?/, '')`.  The pattern is anchored at
the start and non-global; the lazy `[\s\S]*?` makes the closing `---` the
first occurrence after position 3; the greedy `\n?` also removes one
following newline. -/
def removeFrontmatter (s : List Char) : List Char :=
  if "---".data.isPrefixOf s then
    match findSub "---".data (s.drop 3) with
    | none => s
    | some k =>
      match s.drop (3 + k + 3) with
      | '\n' :: r => r
      | rest => rest
  else s

/-- The fenced-code strip of `extractTags`:
`.replace(/```[\s\S]*?```/g, '')`.  The regex only matches a *paired*
fence: an opening ``` with a later closing ```; replacement removes the
match and the scan continues after it.  An opening fence without a
closing one matches nothing and is left in place. -/
def removeFencedBlocks : List Char → List Char
  | [] => []
  | c :: cs =>
    match findSub "```".data (c :: cs) with
    | none => c :: cs
    | some i =>
      match findSub "```".data ((c :: cs).drop (i + 3)) with
      | none => c :: cs
      | some j =>
        (c :: cs).take i ++ removeFencedBlocks ((c :: cs).drop (i + 3 + j + 3))
termination_by l => l.length
decreasing_by
  simp_wf
  omega

/-- The inline-code strip of `extractTags`: `.replace(/`[^`\n]+`/g, '')`.
A match is a backtick, a maximal nonempty run of characters that are
neither backtick nor newline (greedy `+`: no shorter run can be followed
by a backtick, since every character of the run is itself not a
backtick), and a closing backtick.  At a backtick where this fails the
scan moves to the next character. -/
def removeInlineCode : List Char → List Char
  | [] => []
  | c :: cs =>
    if c = backtickChar then
      if 0 < (cs.takeWhile
            (fun d => !(d == backtickChar || d == '\n'))).length
          ∧ (cs.drop (cs.takeWhile
              (fun d => !(d == backtickChar || d == '\n'))).length).head?
            = some backtickChar then
        removeInlineCode (cs.drop ((cs.takeWhile
          (fun d => !(d == backtickChar || d == '\n'))).length + 1))
      else c :: removeInlineCode cs
    else c :: removeInlineCode cs
termination_by l => l.length
decreasing_by
  all_goals simp_wf
  all_goals omega

/-- Attempt to match the hashtag regex at the head of `l` via its second
alternative (`[^a-zA-Z0-9]` then `#` then the tag): returns the captured
tag together with `n` where `n + 1` characters of `l` are consumed. -/
def hashMatchAlt (l : List Char) : Option (List Char × Nat) :=
  match l with
  | p :: d :: c :: rest =>
    if d = '#' ∧ !isAlnumChar p ∧ isTagStartChar c then
      some (c :: rest.takeWhile isTagBodyChar,
            2 + (rest.takeWhile isTagBodyChar).length)
    else none
  | _ => none

/-- Attempt to match the hashtag regex at the head of `l`; `atStart` is
true only at position 0, where the `^` alternative applies (it is tried
first, and on failure the engine backtracks to the other alternative). -/
def hashMatchLen (atStart : Bool) (l : List Char) : Option (List Char × Nat) :=
  if atStart then
    match l with
    | d :: c :: rest =>
      if d = '#' ∧ isTagStartChar c then
        some (c :: rest.takeWhile isTagBodyChar,
              1 + (rest.takeWhile isTagBodyChar).length)
      else hashMatchAlt (d :: c :: rest)
    | _ => hashMatchAlt l
  else hashMatchAlt l

/-- The `HASHTAG_REGEX.exec` loop of `extractTags`: left-to-right,
non-overlapping matches; at a non-match position the scan advances one
character. -/
def scanHashtags : Bool → List Char → List (List Char)
  | _, [] => []
  | atStart, c :: cs =>
    match hashMatchLen atStart (c :: cs) with
    | some (tag, n) => tag :: scanHashtags false ((c :: cs).drop (n + 1))
    | none => scanHashtags false cs
termination_by _ l => l.length
decreasing_by
  all_goals simp_wf
  all_goals omega

/-- `new Set()` insertion in iteration order (`Array.from` of a JS `Set`
enumerates first insertions in order). -/
def dedupeKeepFirst : List (List Char) → List (List Char) → List (List Char)
  | _, [] => []
  | seen, t :: ts =>
    if seen.contains t then dedupeKeepFirst seen ts
    else t :: dedupeKeepFirst (seen ++ [t]) ts

/-- `extractTags` from `src/utils/tagFilter.ts`: strip frontmatter, then
paired code fences, then inline code, scan for hashtags, lowercase each
match and collect into a `Set`. -/
def extractTags (content : String) : List String :=
  let clean := removeInlineCode (removeFencedBlocks (removeFrontmatter content.data))
  (dedupeKeepFirst []
    ((scanHashtags true clean).map (fun t => t.map Char.toLower))).map String.mk

/-- `NoteFrontmatter` from `src/types/note.ts`; the `modified` string is
modeled by the integer `new Date(modified).getTime()` that the sort
comparator of `processFileChanges` derives from it (the optional `date`
field is omitted; no studied code path reads it). -/
structure NoteFrontmatter where
  id : String
  title : String
  created : String
  modified : Int
  column : String
  tags : List String
  order : Int
deriving DecidableEq, Repr

/-- `Note` from `src/types/note.ts`. -/
structure Note where
  frontmatter : NoteFrontmatter
  content : String
  file_path : String
deriving DecidableEq, Repr

/-- `NoteWithTags` from `src/types/folder.ts`. -/
structure NoteWithTags where
  note : Note
  inline_tags : List String
deriving DecidableEq, Repr

/-- The `event_type` variants of `FileChangeEvent`. -/
inductive FileEventType where
  | create : FileEventType
  | modify : FileEventType
  | remove : FileEventType
deriving DecidableEq, Repr

/-- `FileChangeEvent` from `src/types/folder.ts`. -/
structure FileChangeEvent where
  event_type : FileEventType
  file_path : String
deriving DecidableEq, Repr

/-- `IncrementalUpdateResult` from `src/types/folder.ts`. -/
structure IncrementalUpdateResult where
  updated_notes : List NoteWithTags
  removed_paths : List String
deriving DecidableEq, Repr

/-- A JS `Map<string, string[]>` as an insertion-ordered association
list. -/
abbrev InlineTagMap := List (String × List String)

/-- `Map.prototype.set`: overwrite in place when the key is present,
append otherwise. -/
def mapSet (m : InlineTagMap) (k : String) (v : List String) : InlineTagMap :=
  if m.any (fun p => p.1 == k) then
    m.map (fun p => if p.1 == k then (k, v) else p)
  else m ++ [(k, v)]

/-- `Map.prototype.delete`. -/
def mapDelete (m : InlineTagMap) (k : String) : InlineTagMap :=
  m.filter (fun p => !(p.1 == k))

/-- `Map.prototype.get` (`some` iff the key is present). -/
def mapLookup (m : InlineTagMap) (k : String) : Option (List String) :=
  (m.find? (fun p => p.1 == k)).map (fun p => p.2)

/-- The slice of the zustand store state of `src/stores/notesStore.ts`
that the studied operations read or write (`activeNoteId` and
`cacheInitialized` are untouched by them; the folder list goes to the
separate folder store). -/
structure NotesState where
  notes : List Note
  inlineTags : InlineTagMap
  isLoading : Bool
  error : Option String
deriving DecidableEq, Repr

/-- One iteration of the removal loop of the `processFileChanges` merge:
`findIndex` of the first note whose `file_path` equals the removed path,
`delete` of its inline-tag entry, `splice` of the note. -/
def evictPath : List Note → InlineTagMap → String → List Note × InlineTagMap
  | [], tags, _ => ([], tags)
  | n :: ns, tags, p =>
    if n.file_path = p then (ns, mapDelete tags n.frontmatter.id)
    else
      let r := evictPath ns tags p
      (n :: r.1, r.2)

/-- The note-list part of one iteration of the update loop of the
`processFileChanges` merge: `findIndex` by `frontmatter.id`, overwrite at
that index when found, `push` otherwise. -/
def upsertList : List Note → Note → List Note
  | [], note => [note]
  | n :: ns, note =>
    if n.frontmatter.id = note.frontmatter.id then note :: ns
    else n :: upsertList ns note

/-- The final `newNotes.sort((a, b) => bTime - aTime)` of the merge:
stable sort by `modified`, newest first (`Array.prototype.sort` is
stable per ES2019). -/
def sortByModified (notes : List Note) : List Note :=
  notes.mergeSort (fun a b => b.frontmatter.modified ≤ a.frontmatter.modified)

/-- The `set((state) => ...)` merge step of `processFileChanges`
(the spec's `NoteCache.applyUpdates`): evict every removed path, then
upsert every updated note (also setting its inline-tag entry), then
re-sort by `modified` descending. -/
def applyUpdatesMerge (result : IncrementalUpdateResult) (st : NotesState) :
    NotesState :=
  let removed := result.removed_paths.foldl
    (fun acc p => evictPath acc.1 acc.2 p) (st.notes, st.inlineTags)
  let updated := result.updated_notes.foldl
    (fun acc nwt =>
      (upsertList acc.1 nwt.note,
       mapSet acc.2 nwt.note.frontmatter.id nwt.inline_tags))
    removed
  { st with notes := sortByModified updated.1, inlineTags := updated.2 }

/-- The inline-tag map that `loadNotes` builds while mapping over
`result.notes`. -/
def buildInlineTags (nwts : List NoteWithTags) : InlineTagMap :=
  nwts.foldl (fun m nwt => mapSet m nwt.note.frontmatter.id nwt.inline_tags) []

/-- `loadNotes` from `src/stores/notesStore.ts`, as a function of the
outcome of the `list_notes_cached` backend call: the cache is rebuilt
from the returned list (full reload); a failure only records the error
message.  `isLoading` is set on entry and cleared on both paths. -/
def loadNotes (res : Except String (List NoteWithTags)) (st : NotesState) :
    NotesState :=
  match res with
  | Except.ok nwts =>
    { st with
        notes := nwts.map (fun nwt => nwt.note)
        inlineTags := buildInlineTags nwts
        isLoading := false
        error := none }
  | Except.error e => { st with isLoading := false, error := some e }

/-- `processFileChanges` from `src/stores/notesStore.ts`, as a function
of the outcome of the `process_file_changes` backend call (`procRes`; a
thrown exception is the `error` case) and, for the fallback path, of the
outcome of the reload that `loadNotes` performs (`loadRes`).  An empty
change batch returns immediately; an empty result is the documented
no-op; an exception is caught and answered by a full reload. -/
def processFileChanges (changes : List FileChangeEvent)
    (procRes : Except String IncrementalUpdateResult)
    (loadRes : Except String (List NoteWithTags))
    (st : NotesState) : NotesState :=
  if changes.length = 0 then st
  else
    match procRes with
    | Except.error _ => loadNotes loadRes st
    | Except.ok result =>
      if result.updated_notes.length = 0 ∧ result.removed_paths.length = 0 then
        st
      else applyUpdatesMerge result st

/-- The cache-uniqueness invariant of the spec: no two cached notes share
an id, and the inline-tag index has at most one entry per note id. -/
def cacheUnique (st : NotesState) : Prop :=
  (st.notes.map (fun n => n.frontmatter.id)).Nodup
  ∧ (st.inlineTags.map (fun p => p.1)).Nodup

/-- Spec-side description of duplicate collapse, tag part: keep the first
occurrence of every tag, `seen` being the tags already passed. -/
def firstOccurrencesAux (seen : List String) : List String → List String
  | [] => []
  | t :: ts =>
    if seen.contains t then firstOccurrencesAux seen ts
    else t :: firstOccurrencesAux (seen ++ [t]) ts

/-- Spec-side description of duplicate collapse, tag part: the list of
first occurrences in order. -/
def firstOccurrences (l : List String) : List String :=
  firstOccurrencesAux [] l

/-- Spec-side description of duplicate collapse, operator part: each pair
holds a tag (other than the first) together with the operator immediately
preceding it; the operator preceding a removed duplicate is dropped and
every other operator survives, in order. -/
def survivingOps (seen : List String) : List (TagOp × String) → List TagOp
  | [] => []
  | (op, t) :: rest =>
    if seen.contains t then survivingOps seen rest
    else op :: survivingOps (seen ++ [t]) rest

end Noteban

namespace Noteban

theorem length_dropWhile_le {α : Type} (p : α → Bool) :
    ∀ l : List α, (l.dropWhile p).length ≤ l.length := by
  intro l
  induction l with
  | nil => simp [List.dropWhile]
  | cons c cs ih =>
    by_cases h : p c
    · simp [List.dropWhile, h]
      omega
    · simp [List.dropWhile, h]

theorem matchLoop_eq_fold (noteTags : List String) (ops : List TagOp) :
    ∀ (ts : List String) (i : Nat) (r : Bool),
      i + ts.length ≤ ops.length →
      matchLoop noteTags ops r (i + 1) ts =
        (ts.zip (ops.drop i)).foldl
          (fun r p => applyOp p.2 r (noteTags.contains p.1)) r := by
  intro ts
  induction ts with
  | nil => intro i r _; simp [matchLoop]
  | cons t ts ih =>
    intro i r hlen
    have hi : i < ops.length := by simp at hlen; omega
    have hdrop : ops.drop i = ops[i] :: ops.drop (i + 1) :=
      List.drop_eq_getElem_cons hi
    have hgetD : ops.getD i TagOp.AND = ops[i] := by
      simp [List.getD_eq_getElem?_getD, List.getElem?_eq_getElem hi]
    simp only [matchLoop, hdrop, List.zip_cons_cons, List.foldl_cons]
    have := ih (i + 1) (applyOp ops[i] r (noteTags.contains t)) (by simp at hlen ⊢; omega)
    simp only [Nat.add_sub_cancel, hgetD]
    rw [show i + 1 + 1 = (i + 1) + 1 from rfl] at this
    rw [← this]
    cases ops[i] <;> simp [applyOp]

/-- C1: for every filter whose operator list has one operator per adjacent
tag pair, `matchesTagFilter` is the strict left-to-right fold described by
the spec (membership of `tags[0]` combined with membership of `tags[i]`
using `operators[i-1]`, no precedence); in particular a three-tag filter
with operators `[AND, OR]` evaluates as `(has a AND has b) OR has c`, and
a note carrying only the tag `c` matches it. -/
theorem matchesTagFilter_left_fold (noteTags : List String) (filter : TagFilter)
    (h : filter.operators.length = filter.tags.length - 1) :
    matchesTagFilter noteTags filter = evalLeftFold noteTags filter
    ∧ (∀ a b c : String,
        matchesTagFilter noteTags ⟨[a, b, c], [TagOp.AND, TagOp.OR]⟩ =
          ((noteTags.contains a && noteTags.contains b) || noteTags.contains c))
    ∧ (∀ a b c : String,
        matchesTagFilter [c] ⟨[a, b, c], [TagOp.AND, TagOp.OR]⟩ = true) := by
  refine ⟨?_, ?_, ?_⟩
  · cases hf : filter.tags with
    | nil => simp [matchesTagFilter, evalLeftFold, hf]
    | cons t ts =>
      have hl : filter.operators.length = ts.length := by
        rw [h, hf]; simp
      have := matchLoop_eq_fold noteTags filter.operators ts 0
        (noteTags.contains t) (by omega)
      simp only [List.drop_zero] at this
      simp only [matchesTagFilter, evalLeftFold, hf]
      simpa using this
  · intro a b c
    simp [matchesTagFilter, matchLoop, applyOp]
  · intro a b c
    simp [matchesTagFilter, matchLoop, applyOp, List.contains_cons]

theorem matchesTagFilter_left_fold_witness :
    matchesTagFilter ["c"] ⟨["a", "b", "c"], [TagOp.AND, TagOp.OR]⟩ =
      evalLeftFold ["c"] ⟨["a", "b", "c"], [TagOp.AND, TagOp.OR]⟩ :=
  (matchesTagFilter_left_fold ["c"] ⟨["a", "b", "c"], [TagOp.AND, TagOp.OR]⟩
    (by decide)).1

end Noteban

namespace Noteban

/-- C4: a processed batch whose result has empty `updated_notes` and
empty `removed_paths` leaves the entire store state unchanged: no
note-list mutation, no inline-tag mutation, and no re-sort occurs. -/
theorem processFileChanges_noop (changes : List FileChangeEvent)
    (loadRes : Except String (List NoteWithTags)) (st : NotesState) :
    processFileChanges changes (Except.ok ⟨[], []⟩) loadRes st = st := by
  unfold processFileChanges
  by_cases h : changes.length = 0 <;> simp [h]

/-- C5: when processing a non-empty batch raises an exception, no partial
incremental merge is applied and the exception is not propagated: the
resulting state is exactly the one produced by the full-reload fallback
`loadNotes` on the unchanged input state - the single recovery path. -/
theorem processFileChanges_fallback (changes : List FileChangeEvent)
    (e : String) (loadRes : Except String (List NoteWithTags))
    (st : NotesState) (h : changes ≠ []) :
    processFileChanges changes (Except.error e) loadRes st =
      loadNotes loadRes st := by
  unfold processFileChanges
  simp [List.length_eq_zero, h]

theorem processFileChanges_fallback_witness :
    processFileChanges [⟨FileEventType.remove, "p"⟩] (Except.error "boom")
        (Except.ok []) ⟨[], [], false, none⟩ =
      loadNotes (Except.ok []) ⟨[], [], false, none⟩ :=
  processFileChanges_fallback [⟨FileEventType.remove, "p"⟩] "boom"
    (Except.ok []) ⟨[], [], false, none⟩ (by simp)

end Noteban

namespace Noteban

theorem evictPath_fst_sublist (ns : List Note) (tags : InlineTagMap)
    (p : String) : (evictPath ns tags p).1.Sublist ns := by
  induction ns generalizing tags with
  | nil => simp [evictPath]
  | cons n ns ih =>
    simp only [evictPath]
    by_cases h : n.file_path = p
    · simp only [h, if_pos rfl]
      exact List.sublist_cons_self n ns
    · simp only [if_neg h]
      exact (ih tags).cons₂ n

theorem evictPath_snd_sublist (ns : List Note) (tags : InlineTagMap)
    (p : String) : (evictPath ns tags p).2.Sublist tags := by
  induction ns generalizing tags with
  | nil => simp [evictPath]
  | cons n ns ih =>
    simp only [evictPath]
    by_cases h : n.file_path = p
    · simp only [h, if_pos rfl]
      exact List.filter_sublist tags
    · simp only [if_neg h]
      exact ih tags

theorem upsertList_map_id (ns : List Note) (note : Note) :
    (upsertList ns note).map (fun n => n.frontmatter.id) =
      if note.frontmatter.id ∈ ns.map (fun n => n.frontmatter.id) then
        ns.map (fun n => n.frontmatter.id)
      else ns.map (fun n => n.frontmatter.id) ++ [note.frontmatter.id] := by
  induction ns with
  | nil => simp [upsertList]
  | cons n ns ih =>
    simp only [upsertList]
    by_cases h : n.frontmatter.id = note.frontmatter.id
    · simp [h]
    · by_cases h2 : note.frontmatter.id ∈ ns.map (fun n => n.frontmatter.id) <;>
        simp [h, ih, h2, Ne.symm h]

theorem mapSet_keys (m : InlineTagMap) (k : String) (v : List String) :
    (mapSet m k v).map (fun p => p.1) =
      if k ∈ m.map (fun p => p.1) then m.map (fun p => p.1)
      else m.map (fun p => p.1) ++ [k] := by
  unfold mapSet
  by_cases h : m.any (fun p => p.1 == k)
  · have hmem : k ∈ m.map (fun p => p.1) := by
      simp only [List.any_eq_true, beq_iff_eq] at h
      obtain ⟨p, hp, he⟩ := h
      exact List.mem_map.mpr ⟨p, hp, he⟩
    simp only [h, if_true, hmem]
    rw [List.map_map]
    apply List.map_congr_left
    intro p _
    by_cases hp : p.1 = k
    · simp [hp]
    · simp [hp]
  · have hmem : k ∉ m.map (fun p => p.1) := by
      simp only [List.any_eq_true, beq_iff_eq] at h
      intro hc
      obtain ⟨p, hp, he⟩ := List.mem_map.mp hc
      exact h ⟨p, hp, by simp [he]⟩
    simp [h, hmem]

theorem foldl_evict_unique (ps : List String) :
    ∀ (ns : List Note) (tags : InlineTagMap),
      (ns.map (fun n => n.frontmatter.id)).Nodup →
      (tags.map (fun p => p.1)).Nodup →
      ((ps.foldl (fun acc p => evictPath acc.1 acc.2 p)
          (ns, tags)).1.map (fun n => n.frontmatter.id)).Nodup ∧
      ((ps.foldl (fun acc p => evictPath acc.1 acc.2 p)
          (ns, tags)).2.map (fun p => p.1)).Nodup := by
  induction ps with
  | nil => intro ns tags h1 h2; exact ⟨h1, h2⟩
  | cons p ps ih =>
    intro ns tags h1 h2
    simp only [List.foldl_cons]
    exact ih (evictPath ns tags p).1 (evictPath ns tags p).2
      (h1.sublist ((evictPath_fst_sublist ns tags p).map _))
      (h2.sublist ((evictPath_snd_sublist ns tags p).map _))

theorem foldl_upsert_unique (us : List NoteWithTags) :
    ∀ (ns : List Note) (tags : InlineTagMap),
      (ns.map (fun n => n.frontmatter.id)).Nodup →
      (tags.map (fun p => p.1)).Nodup →
      ((us.foldl (fun acc nwt =>
          (upsertList acc.1 nwt.note,
           mapSet acc.2 nwt.note.frontmatter.id nwt.inline_tags))
          (ns, tags)).1.map (fun n => n.frontmatter.id)).Nodup ∧
      ((us.foldl (fun acc nwt =>
          (upsertList acc.1 nwt.note,
           mapSet acc.2 nwt.note.frontmatter.id nwt.inline_tags))
          (ns, tags)).2.map (fun p => p.1)).Nodup := by
  induction us with
  | nil => intro ns tags h1 h2; exact ⟨h1, h2⟩
  | cons nwt us ih =>
    intro ns tags h1 h2
    simp only [List.foldl_cons]
    apply ih
    · rw [upsertList_map_id]
      by_cases hm : nwt.note.frontmatter.id ∈
          ns.map (fun n => n.frontmatter.id)
      · simpa [hm] using h1
      · simp only [hm, if_false]
        simp [List.nodup_append, h1, hm]
    · rw [mapSet_keys]
      by_cases hm : nwt.note.frontmatter.id ∈ tags.map (fun p => p.1)
      · simpa [hm] using h2
      · simp only [hm, if_false]
        simp [List.nodup_append, h2, hm]

theorem applyUpdatesMerge_unique (r : IncrementalUpdateResult)
    (st : NotesState) (h : cacheUnique st) :
    cacheUnique (applyUpdatesMerge r st) := by
  obtain ⟨h1, h2⟩ := h
  have he := foldl_evict_unique r.removed_paths st.notes st.inlineTags h1 h2
  have hu := foldl_upsert_unique r.updated_notes _ _ he.1 he.2
  refine ⟨?_, hu.2⟩
  have hperm := (List.mergeSort_perm
    ((r.updated_notes.foldl (fun acc nwt =>
        (upsertList acc.1 nwt.note,
         mapSet acc.2 nwt.note.frontmatter.id nwt.inline_tags))
      (r.removed_paths.foldl (fun acc p => evictPath acc.1 acc.2 p)
        (st.notes, st.inlineTags))).1)
    (fun a b => b.frontmatter.modified ≤ a.frontmatter.modified)).map
      (fun n => n.frontmatter.id)
  exact hperm.nodup_iff.mpr hu.1

/-- C2: starting from a state where no two notes share an id and the
inline-tag index has at most one entry per note id, any sequence of
`processFileChanges` merge steps (the spec's `applyUpdates`) preserves
both: the note list never contains two entries with the same id, and
every note id keeps at most one inline-tag entry. -/
theorem cacheUnique_applyUpdates (results : List IncrementalUpdateResult)
    (st : NotesState) (h : cacheUnique st) :
    cacheUnique (results.foldl (fun s r => applyUpdatesMerge r s) st) := by
  induction results generalizing st with
  | nil => exact h
  | cons r rs ih =>
    simp only [List.foldl_cons]
    exact ih (applyUpdatesMerge r st) (applyUpdatesMerge_unique r st h)

theorem cacheUnique_applyUpdates_witness :
    cacheUnique (([⟨[], []⟩] : List IncrementalUpdateResult).foldl
      (fun s r => applyUpdatesMerge r s) ⟨[], [], false, none⟩) :=
  cacheUnique_applyUpdates [⟨[], []⟩] ⟨[], [], false, none⟩
    ⟨by simp, by simp⟩

end Noteban

namespace Noteban

theorem upsertList_append (ns : List Note) (note : Note)
    (h : ∀ m ∈ ns, m.frontmatter.id ≠ note.frontmatter.id) :
    upsertList ns note = ns ++ [note] := by
  induction ns with
  | nil => simp [upsertList]
  | cons n ns ih =>
    simp only [upsertList]
    rw [if_neg (h n (by simp))]
    simp only [List.cons_append, List.cons.injEq, true_and]
    exact ih (fun m hm => h m (by simp [hm]))

theorem upsertList_replace (l1 l2 : List Note) (n2 note : Note)
    (h : ∀ m ∈ l1, m.frontmatter.id ≠ note.frontmatter.id)
    (h2 : n2.frontmatter.id = note.frontmatter.id) :
    upsertList (l1 ++ n2 :: l2) note = l1 ++ note :: l2 := by
  induction l1 with
  | nil => simp [upsertList, h2]
  | cons n l1 ih =>
    simp only [List.cons_append, upsertList]
    rw [if_neg (h n (by simp))]
    simp only [List.cons.injEq, true_and]
    exact ih (fun m hm => h m (by simp [hm]))

theorem evictPath_not_found (ns : List Note) (tags : InlineTagMap)
    (q : String) (h : ∀ m ∈ ns, m.file_path ≠ q) :
    evictPath ns tags q = (ns, tags) := by
  induction ns with
  | nil => simp [evictPath]
  | cons n ns ih =>
    simp only [evictPath]
    rw [if_neg (h n (by simp))]
    simp [ih (fun m hm => h m (by simp [hm]))]

theorem evictPath_found (l1 l2 : List Note) (n2 : Note) (tags : InlineTagMap)
    (q : String) (h : ∀ m ∈ l1, m.file_path ≠ q) (h2 : n2.file_path = q) :
    evictPath (l1 ++ n2 :: l2) tags q =
      (l1 ++ l2, mapDelete tags n2.frontmatter.id) := by
  induction l1 with
  | nil => simp [evictPath, h2]
  | cons n l1 ih =>
    simp only [List.cons_append, evictPath]
    rw [if_neg (h n (by simp))]
    simp [ih (fun m hm => h m (by simp [hm]))]

theorem upsertList_filter_id (ns : List Note) (note : Note)
    (h : (ns.map (fun n => n.frontmatter.id)).Nodup) :
    (upsertList ns note).filter
      (fun m => m.frontmatter.id == note.frontmatter.id) = [note] := by
  induction ns with
  | nil => simp [upsertList]
  | cons n ns ih =>
    simp only [List.map_cons, List.nodup_cons] at h
    simp only [upsertList]
    by_cases hn : n.frontmatter.id = note.frontmatter.id
    · have hnil : ns.filter
          (fun m => m.frontmatter.id == note.frontmatter.id) = [] := by
        rw [List.filter_eq_nil_iff]
        intro m hm
        have : m.frontmatter.id ≠ n.frontmatter.id := by
          intro hc
          exact h.1 (List.mem_map.mpr ⟨m, hm, hc⟩)
        simp [hn ▸ this]
      simp [if_pos hn, List.filter_cons, hnil]
    · have hb : (n.frontmatter.id == note.frontmatter.id) = false := by
        simp [hn]
      simp only [if_neg hn, List.filter_cons, hb, Bool.false_eq_true,
        if_false]
      exact ih h.2

theorem find_overwrite (k : String) (v : List String) :
    ∀ m : InlineTagMap, m.any (fun p => p.1 == k) →
      ((m.map (fun p => if p.1 == k then (k, v) else p)).find?
        (fun p => p.1 == k)) = some (k, v) := by
  intro m
  induction m with
  | nil => simp
  | cons q m ih =>
    intro h
    by_cases hq : q.1 = k
    · simp [List.find?, hq]
    · have hb : (q.1 == k) = false := by simp [hq]
      have h' : m.any (fun p => p.1 == k) := by
        simp only [List.any_cons, hb, Bool.false_or] at h
        exact h
      simp only [List.map_cons, hb, Bool.false_eq_true, if_false,
        List.find?_cons, hb]
      exact ih h'

theorem find_append_new (k : String) (v : List String) :
    ∀ m : InlineTagMap, ¬ m.any (fun p => p.1 == k) →
      ((m ++ [(k, v)]).find? (fun p => p.1 == k)) = some (k, v) := by
  intro m
  induction m with
  | nil => simp
  | cons q m ih =>
    intro h
    simp only [List.any_cons, Bool.or_eq_true] at h
    push_neg at h
    have hb : (q.1 == k) = false := by
      cases hqb : (q.1 == k) with
      | false => rfl
      | true => exact absurd hqb h.1
    simp only [List.cons_append, List.find?_cons, hb]
    exact ih (by simpa using h.2)

theorem mapLookup_mapSet_self (m : InlineTagMap) (k : String)
    (v : List String) : mapLookup (mapSet m k v) k = some v := by
  unfold mapSet mapLookup
  by_cases h : m.any (fun p => p.1 == k)
  · simp only [h, if_true]
    rw [find_overwrite k v m h]
    rfl
  · simp only [h, if_false, Bool.false_eq_true]
    rw [find_append_new k v m h]
    rfl

/-- C3: the `processFileChanges` merge first evicts, for each removed
path, the first note whose current `file_path` equals it (deleting that
note's inline-tag entry), then lets each updated note replace in place
the note with the same id when one exists and appends it otherwise, and
finally re-sorts; hence a rename delivered as remove(oldPath) +
create(newPath) with the same id leaves exactly one note with that id,
carrying the new path, and its inline-tag entry updated. -/
theorem applyUpdatesMerge_spec (st : NotesState) (h : cacheUnique st)
    (p : String) (nwt : NoteWithTags) (n : Note)
    (hn : n ∈ st.notes) (hpath : n.file_path = p)
    (hid : nwt.note.frontmatter.id = n.frontmatter.id) :
    (∀ (ns : List Note) (note : Note),
        (∀ m ∈ ns, m.frontmatter.id ≠ note.frontmatter.id) →
        upsertList ns note = ns ++ [note])
    ∧ (∀ (l1 l2 : List Note) (n2 note : Note),
        (∀ m ∈ l1, m.frontmatter.id ≠ note.frontmatter.id) →
        n2.frontmatter.id = note.frontmatter.id →
        upsertList (l1 ++ n2 :: l2) note = l1 ++ note :: l2)
    ∧ (∀ (ns : List Note) (tags : InlineTagMap) (q : String),
        (∀ m ∈ ns, m.file_path ≠ q) → evictPath ns tags q = (ns, tags))
    ∧ (∀ (l1 l2 : List Note) (n2 : Note) (tags : InlineTagMap) (q : String),
        (∀ m ∈ l1, m.file_path ≠ q) → n2.file_path = q →
        evictPath (l1 ++ n2 :: l2) tags q =
          (l1 ++ l2, mapDelete tags n2.frontmatter.id))
    ∧ ((applyUpdatesMerge ⟨[nwt], [p]⟩ st).notes.filter
          (fun m => m.frontmatter.id == nwt.note.frontmatter.id) = [nwt.note])
    ∧ (mapLookup (applyUpdatesMerge ⟨[nwt], [p]⟩ st).inlineTags
          nwt.note.frontmatter.id = some nwt.inline_tags) := by
  refine ⟨upsertList_append, upsertList_replace, evictPath_not_found,
    evictPath_found, ?_, ?_⟩
  · show (sortByModified (upsertList
        (evictPath st.notes st.inlineTags p).1 nwt.note)).filter
        (fun m => m.frontmatter.id == nwt.note.frontmatter.id) = [nwt.note]
    have hNodup : ((evictPath st.notes st.inlineTags p).1.map
        (fun n => n.frontmatter.id)).Nodup :=
      h.1.sublist ((evictPath_fst_sublist st.notes st.inlineTags p).map _)
    have hfilter := upsertList_filter_id
      (evictPath st.notes st.inlineTags p).1 nwt.note hNodup
    have hperm := (List.mergeSort_perm
      (upsertList (evictPath st.notes st.inlineTags p).1 nwt.note)
      (fun a b => b.frontmatter.modified ≤ a.frontmatter.modified)).filter
      (fun m => m.frontmatter.id == nwt.note.frontmatter.id)
    rw [hfilter] at hperm
    exact List.perm_singleton.mp hperm
  · show mapLookup (mapSet (evictPath st.notes st.inlineTags p).2
        nwt.note.frontmatter.id nwt.inline_tags)
        nwt.note.frontmatter.id = some nwt.inline_tags
    exact mapLookup_mapSet_self _ _ _

end Noteban

namespace Noteban

theorem applyUpdatesMerge_spec_witness :
    (applyUpdatesMerge
        ⟨[⟨⟨⟨"id1", "t", "c", 9, "todo", [], 0⟩, "", "/n/note1b.md"⟩,
           ["work"]⟩],
         ["/n/note1.md"]⟩
        ⟨[⟨⟨"id1", "t", "c", 5, "todo", [], 0⟩, "", "/n/note1.md"⟩],
         [("id1", ["work"])], false, none⟩).notes.filter
      (fun m => m.frontmatter.id == "id1") =
      [⟨⟨"id1", "t", "c", 9, "todo", [], 0⟩, "", "/n/note1b.md"⟩] :=
  (applyUpdatesMerge_spec
    ⟨[⟨⟨"id1", "t", "c", 5, "todo", [], 0⟩, "", "/n/note1.md"⟩],
     [("id1", ["work"])], false, none⟩
    ⟨by simp, by simp⟩
    "/n/note1.md"
    ⟨⟨⟨"id1", "t", "c", 9, "todo", [], 0⟩, "", "/n/note1b.md"⟩, ["work"]⟩
    ⟨⟨"id1", "t", "c", 5, "todo", [], 0⟩, "", "/n/note1.md"⟩
    (by simp) rfl rfl).2.2.2.2.1

end Noteban

namespace Noteban

theorem rawTagsOps_length (trimmed : List Char) :
    (rawTagsOps trimmed).2.length = (rawTagsOps trimmed).1.length - 1 := by
  unfold rawTagsOps
  cases scanFilterTokens [] trimmed with
  | nil => simp
  | cons p rest => simp

theorem dedupLoop_eq (ops : List TagOp) :
    ∀ (rest : List String) (i : Nat) (seen uT : List String) (uO : List TagOp),
      0 < uT.length → 1 ≤ i → i + rest.length ≤ ops.length + 1 →
      dedupLoop ops rest i seen uT uO =
        (uT ++ firstOccurrencesAux seen rest,
         uO ++ survivingOps seen ((ops.drop (i - 1)).zip rest)) := by
  intro rest
  induction rest with
  | nil =>
    intro i seen uT uO _ _ _
    simp [dedupLoop, firstOccurrencesAux, survivingOps]
  | cons t rest ih =>
    intro i seen uT uO hUT hi hlen
    have hidx : i - 1 < ops.length := by
      simp only [List.length_cons] at hlen
      omega
    have hdrop : ops.drop (i - 1) = ops[i - 1] :: ops.drop i := by
      have h1 : i - 1 + 1 = i := by omega
      rw [List.drop_eq_getElem_cons hidx, h1]
    have hgetD : ops.getD (i - 1) TagOp.AND = ops[i - 1] := by
      simp [List.getD_eq_getElem?_getD, List.getElem?_eq_getElem hidx]
    simp only [dedupLoop, hdrop, List.zip_cons_cons, firstOccurrencesAux,
      survivingOps]
    by_cases hseen : seen.contains t
    · rw [if_pos hseen, if_pos hseen, if_pos hseen]
      have hrec := ih (i + 1) seen uT uO hUT (by omega)
        (by simp only [List.length_cons] at hlen; omega)
      simp only [Nat.add_sub_cancel] at hrec
      exact hrec
    · rw [if_neg hseen, if_neg hseen, if_neg hseen,
        if_pos (by constructor <;> omega)]
      have hrec := ih (i + 1) (seen ++ [t]) (uT ++ [t])
        (uO ++ [ops.getD (i - 1) TagOp.AND]) (by simp) (by omega)
        (by simp only [List.length_cons] at hlen; omega)
      simp only [Nat.add_sub_cancel] at hrec
      rw [hrec, hgetD]
      simp

theorem dedupLoop_entry (ops : List TagOp) (t0 : String) (rest : List String)
    (hlen : rest.length ≤ ops.length) :
    dedupLoop ops (t0 :: rest) 0 [] [] [] =
      (firstOccurrences (t0 :: rest), survivingOps [t0] (ops.zip rest)) := by
  have h0 : (([] : List String).contains t0) = false := by simp
  simp only [dedupLoop, h0, Bool.false_eq_true, if_false, List.length_nil,
    Nat.lt_irrefl, and_false, if_false, List.nil_append]
  have := dedupLoop_eq ops rest 1 [t0] [t0] [] (by simp) (by omega)
    (by omega)
  rw [this]
  simp [firstOccurrences, firstOccurrencesAux, h0]

/-- C7: `parseTagFilterExpression` collapses duplicate tags to their
first occurrence and re-indexes the operator list by dropping, for each
removed duplicate, exactly the operator immediately preceding it (the
operator following it survives); in particular parsing `#a #a #b` yields
tags `[a, b]` with operators `[AND]`. -/
theorem parseTagFilterExpression_dedup (input : String) (f : TagFilter)
    (h : parseTagFilterExpression input = some f) :
    (f.tags = firstOccurrences (rawTagsOps (trimChars input.data)).1
     ∧ f.operators =
        survivingOps ((rawTagsOps (trimChars input.data)).1.take 1)
          ((rawTagsOps (trimChars input.data)).2.zip
            (rawTagsOps (trimChars input.data)).1.tail))
    ∧ parseTagFilterExpression "#a #a #b" =
        some ⟨["a", "b"], [TagOp.AND]⟩ := by
  refine ⟨?_, by
    have hx : ¬ ([' ', 'O', 'R', ' '] <:+: [' ']) := by decide
    simp [parseTagFilterExpression, rawTagsOps, scanFilterTokens, inferOp,
      dedupLoop, trimChars, toUpperChars, isFilterTagChar, isWordChar, hx]⟩
  unfold parseTagFilterExpression at h
  by_cases ht : trimChars input.data = []
  · rw [if_pos ht] at h
    exact absurd h (by simp)
  · rw [if_neg ht] at h
    have hlen := rawTagsOps_length (trimChars input.data)
    rcases hr : rawTagsOps (trimChars input.data) with ⟨tags, ops⟩
    rw [hr] at h hlen
    cases tags with
    | nil => exact absurd h (by simp)
    | cons t0 ts =>
      simp only [List.length_cons] at hlen
      simp only at h
      have hops : ts.length ≤ ops.length := by omega
      rw [dedupLoop_entry ops t0 ts hops] at h
      have hf := Option.some.inj h
      rw [← hf]
      simp

end Noteban

namespace Noteban

theorem parseTagFilterExpression_dedup_witness :
    (((⟨["a", "b"], [TagOp.AND]⟩ : TagFilter).tags =
        firstOccurrences (rawTagsOps (trimChars "#a #a #b".data)).1
      ∧ (⟨["a", "b"], [TagOp.AND]⟩ : TagFilter).operators =
        survivingOps ((rawTagsOps (trimChars "#a #a #b".data)).1.take 1)
          ((rawTagsOps (trimChars "#a #a #b".data)).2.zip
            (rawTagsOps (trimChars "#a #a #b".data)).1.tail))
     ∧ parseTagFilterExpression "#a #a #b" =
        some ⟨["a", "b"], [TagOp.AND]⟩) :=
  parseTagFilterExpression_dedup "#a #a #b" ⟨["a", "b"], [TagOp.AND]⟩ (by
    have hx : ¬ ([' ', 'O', 'R', ' '] <:+: [' ']) := by decide
    simp [parseTagFilterExpression, rawTagsOps, scanFilterTokens, inferOp,
      dedupLoop, trimChars, toUpperChars, isFilterTagChar, isWordChar, hx])

end Noteban

namespace Noteban

/-- C8 counterexample: in `#a OR#b` the text between the two tag matches
is `" OR"`, which does not contain the literal substring `" OR "`
(there is no trailing space), yet the parsed operator is `OR` - so
`OR` is not inferred *only* when `" OR "` appears between the tags. -/
theorem inferOp_or_counterexample :
    parseTagFilterExpression "#a OR#b" = some ⟨["a", "b"], [TagOp.OR]⟩
    ∧ (scanFilterTokens [] (trimChars "#a OR#b".data)).map (fun p => p.1) =
        [[], [' ', 'O', 'R']]
    ∧ ¬ (" OR ".data <:+: toUpperChars [' ', 'O', 'R']) := by
  have hx : ¬ ([' ', 'O', 'R', ' '] <:+: [' ', 'O', 'R']) := by decide
  refine ⟨?_, ?_, by decide⟩
  · simp [parseTagFilterExpression, rawTagsOps, scanFilterTokens, inferOp,
      dedupLoop, trimChars, toUpperChars, isFilterTagChar, isWordChar, hx]
  · simp [scanFilterTokens, trimChars, isFilterTagChar, isWordChar]

/-- C8 amended: the operator preceding each tag other than the first is
`OR` exactly when the uppercased text between the previous tag and this
one either contains the literal substring `" OR "` or trims to exactly
`"OR"`; in every other case it is `AND`. -/
theorem inferOp_rule (input : String) :
    (rawTagsOps (trimChars input.data)).2 =
      ((scanFilterTokens [] (trimChars input.data)).tail).map
        (fun p =>
          if " OR ".data <:+: toUpperChars p.1
             ∨ trimChars (toUpperChars p.1) = "OR".data
          then TagOp.OR else TagOp.AND) := by
  unfold rawTagsOps
  cases scanFilterTokens [] (trimChars input.data) with
  | nil => simp
  | cons p rest =>
    simp only [List.tail_cons]
    apply List.map_congr_left
    intro q _
    unfold inferOp
    by_cases h1 : " OR ".data <:+: toUpperChars q.1
    · simp [h1]
    · by_cases h2 : trimChars (toUpperChars q.1) = "OR".data <;>
        simp [h1, h2]

end Noteban

namespace Noteban

theorem findIdx?_some_bound {α : Type} (p : α → Bool) :
    ∀ (l : List α) (s i : Nat), List.findIdx? p l s = some i →
      s ≤ i ∧ i - s < l.length := by
  intro l
  induction l with
  | nil => intro s i h; simp [List.findIdx?_nil] at h
  | cons x xs ih =>
    intro s i h
    rw [List.findIdx?_cons] at h
    by_cases hp : p x
    · rw [if_pos hp] at h
      have := Option.some.inj h
      subst this
      simp
    · rw [if_neg hp] at h
      have := ih (s + 1) i h
      constructor
      · omega
      · simp only [List.length_cons]
        omega

theorem dedupLoop_length (ops : List TagOp) :
    ∀ (rest : List String) (i : Nat) (seen uT : List String)
      (uO : List TagOp),
      uO.length = uT.length - 1 → (uT ≠ [] → 0 < i) →
      (dedupLoop ops rest i seen uT uO).2.length =
        (dedupLoop ops rest i seen uT uO).1.length - 1 := by
  intro rest
  induction rest with
  | nil =>
    intro i seen uT uO h1 _
    simpa [dedupLoop] using h1
  | cons t rest ih =>
    intro i seen uT uO h1 h2
    simp only [dedupLoop]
    by_cases hseen : seen.contains t
    · rw [if_pos hseen]
      exact ih (i + 1) seen uT uO h1 (fun _ => by omega)
    · rw [if_neg hseen]
      apply ih
      · by_cases hc : 0 < uT.length ∧ 0 < i
        · rw [if_pos hc]
          simp only [List.length_append, List.length_cons, List.length_nil]
          omega
        · rw [if_neg hc]
          have huT : uT.length = 0 := by
            by_contra hne
            exact hc ⟨by omega, h2 (by
              intro he
              exact hne (by simp [he]))⟩
          simp only [List.length_append, List.length_cons, List.length_nil]
          omega
      · intro _
        omega

/-- C9: every `TagFilter` constructor and mutation helper returns a
filter satisfying `operators.length == max(tags.length - 1, 0)` (which is
truncated subtraction on `Nat`), whenever the input filter satisfies it:
`parseTagFilterExpression`, `addTagToFilter`, `removeTagFromFilter`,
`toggleTagInFilter`, `setOperatorAtIndex`, `createSingleTagFilter` and
`createEmptyTagFilter`. -/
theorem operatorsLengthInvariant (filter : TagFilter)
    (hf : filter.operators.length = filter.tags.length - 1)
    (tag : String) (operator : TagOp) (index : Nat) (input : String) :
    (∀ g : TagFilter, parseTagFilterExpression input = some g →
        g.operators.length = g.tags.length - 1)
    ∧ (addTagToFilter filter tag operator).operators.length =
        (addTagToFilter filter tag operator).tags.length - 1
    ∧ (removeTagFromFilter filter tag).operators.length =
        (removeTagFromFilter filter tag).tags.length - 1
    ∧ (toggleTagInFilter filter tag operator).operators.length =
        (toggleTagInFilter filter tag operator).tags.length - 1
    ∧ (setOperatorAtIndex filter index operator).operators.length =
        (setOperatorAtIndex filter index operator).tags.length - 1
    ∧ (createSingleTagFilter tag).operators.length =
        (createSingleTagFilter tag).tags.length - 1
    ∧ createEmptyTagFilter.operators.length =
        createEmptyTagFilter.tags.length - 1 := by
  have hadd : (addTagToFilter filter tag operator).operators.length =
      (addTagToFilter filter tag operator).tags.length - 1 := by
    unfold addTagToFilter
    by_cases hc : filter.tags.contains tag
    · rw [if_pos hc]; exact hf
    · rw [if_neg hc]
      by_cases hl : 0 < filter.tags.length
      · simp only [if_pos hl, List.length_append, List.length_cons,
          List.length_nil]
        omega
      · simp only [if_neg hl, List.length_append, List.length_cons,
          List.length_nil]
        omega
  have hrem : (removeTagFromFilter filter tag).operators.length =
      (removeTagFromFilter filter tag).tags.length - 1 := by
    unfold removeTagFromFilter
    cases hidx : filter.tags.findIdx? (fun t => t == tag) with
    | none => exact hf
    | some index =>
      have hbound := findIdx?_some_bound (fun t => t == tag)
        filter.tags 0 index hidx
      simp only [Nat.sub_zero] at hbound
      simp only [List.length_eraseIdx]
      split_ifs <;>
        first
          | omega
          | (simp only [List.length_eraseIdx]
             split_ifs <;> omega)
  refine ⟨?_, hadd, hrem, ?_, ?_, by simp [createSingleTagFilter],
    by simp [createEmptyTagFilter]⟩
  · intro g hg
    unfold parseTagFilterExpression at hg
    by_cases ht : trimChars input.data = []
    · rw [if_pos ht] at hg
      exact absurd hg (by simp)
    · rw [if_neg ht] at hg
      rcases hr : rawTagsOps (trimChars input.data) with ⟨tags, ops⟩
      rw [hr] at hg
      cases tags with
      | nil => exact absurd hg (by simp)
      | cons t0 ts =>
        simp only at hg
        have := dedupLoop_length ops (t0 :: ts) 0 [] [] []
          (by simp) (by simp)
        rw [← Option.some.inj hg]
        exact this
  · unfold toggleTagInFilter
    by_cases hc : filter.tags.contains tag
    · rw [if_pos hc]; exact hrem
    · rw [if_neg hc]; exact hadd
  · unfold setOperatorAtIndex
    by_cases hi : index < filter.operators.length
    · simp only [if_pos hi, List.length_set]
      exact hf
    · rw [if_neg hi]; exact hf

theorem operatorsLengthInvariant_witness :
    (addTagToFilter ⟨["a", "b"], [TagOp.AND]⟩ "c" TagOp.OR).operators.length =
      (addTagToFilter ⟨["a", "b"], [TagOp.AND]⟩ "c" TagOp.OR).tags.length - 1 :=
  (operatorsLengthInvariant ⟨["a", "b"], [TagOp.AND]⟩ (by simp) "c" TagOp.OR 0
    "#x").2.1

end Noteban

namespace Noteban

theorem takeWhile_all {α : Type} (p : α → Bool) :
    ∀ l : List α, (∀ x ∈ l, p x = true) → l.takeWhile p = l := by
  intro l
  induction l with
  | nil => simp
  | cons c cs ih =>
    intro h
    rw [List.takeWhile_cons, if_pos (h c (by simp))]
    rw [ih (fun x hx => h x (by simp [hx]))]

theorem dropWhile_all {α : Type} (p : α → Bool) :
    ∀ l : List α, (∀ x ∈ l, p x = true) → l.dropWhile p = [] := by
  intro l
  induction l with
  | nil => simp
  | cons c cs ih =>
    intro h
    rw [List.dropWhile_cons, if_pos (h c (by simp))]
    exact ih (fun x hx => h x (by simp [hx]))

theorem tagBodyChar_ne (d : Char) (h : isTagBodyChar d = true) :
    d ≠ backtickChar ∧ d ≠ '\n' ∧ d ≠ '#' := by
  refine ⟨?_, ?_, ?_⟩ <;> intro he <;> rw [he] at h <;>
    exact absurd h (by decide)

theorem tagStartChar_ne (c : Char) (h : isTagStartChar c = true) :
    c ≠ backtickChar ∧ c ≠ '\n' ∧ c ≠ '#' := by
  refine ⟨?_, ?_, ?_⟩ <;> intro he <;> rw [he] at h <;>
    exact absurd h (by decide)

theorem tagStartChar_body (c : Char) (h : isTagStartChar c = true) :
    isTagBodyChar c = true := by
  simp only [isTagStartChar] at h
  simp [isTagBodyChar, h]

theorem findSub_cons_none (a : Char) (pat : List Char) :
    ∀ l : List Char, (∀ d ∈ l, d ≠ a) → findSub (a :: pat) l = none := by
  intro l
  induction l with
  | nil => simp [findSub]
  | cons c cs ih =>
    intro h
    have hne : (a == c) = false := by
      simp only [beq_eq_false_iff_ne, ne_eq]
      exact fun he => h c (by simp) he.symm
    rw [findSub, if_neg (by simp [List.isPrefixOf, hne]),
      ih (fun d hd => h d (by simp [hd]))]
    rfl

theorem removeInlineCode_no_backtick :
    ∀ l : List Char, (∀ d ∈ l, d ≠ backtickChar) → removeInlineCode l = l := by
  intro l
  induction l with
  | nil => simp [removeInlineCode]
  | cons c cs ih =>
    intro h
    rw [removeInlineCode, if_neg (h c (by simp)),
      ih (fun d hd => h d (by simp [hd]))]

end Noteban

namespace Noteban

theorem removeInlineCode_bq_step (d : Char) (l : List Char)
    (hd : d = backtickChar ∨ d = '\n') :
    removeInlineCode (backtickChar :: d :: l) =
      backtickChar :: removeInlineCode (d :: l) := by
  have hrun : (d :: l).takeWhile
      (fun e => !(e == backtickChar || e == '\n')) = [] := by
    rcases hd with h | h <;> subst h <;>
      simp [List.takeWhile_cons, backtickChar]
  rw [removeInlineCode, if_pos rfl, if_neg (by rw [hrun]; simp)]

theorem removeInlineCode_fence (l : List Char)
    (h : ∀ d ∈ l, d ≠ backtickChar) :
    removeInlineCode
        (backtickChar :: backtickChar :: backtickChar :: '\n' :: l) =
      backtickChar :: backtickChar :: backtickChar :: '\n' :: l := by
  rw [removeInlineCode_bq_step backtickChar _ (Or.inl rfl),
    removeInlineCode_bq_step backtickChar _ (Or.inl rfl),
    removeInlineCode_bq_step '\n' _ (Or.inr rfl),
    removeInlineCode_no_backtick ('\n' :: l) (by
      intro d hd
      rcases List.mem_cons.mp hd with h1 | h1
      · subst h1; decide
      · exact h d h1)]

theorem removeFrontmatter_fence (l : List Char) :
    removeFrontmatter (backtickChar :: l) = backtickChar :: l := by
  have hd : "---".data = '-' :: "--".data := by decide
  unfold removeFrontmatter
  rw [if_neg]
  rw [hd]
  simp [List.isPrefixOf, backtickChar]

theorem removeFencedBlocks_unterminated (l : List Char)
    (h : ∀ d ∈ l, d ≠ backtickChar) :
    removeFencedBlocks
        (backtickChar :: backtickChar :: backtickChar :: '\n' :: l) =
      backtickChar :: backtickChar :: backtickChar :: '\n' :: l := by
  have hfence : "```".data = [backtickChar, backtickChar, backtickChar] := by
    decide
  have h1 : findSub "```".data
      (backtickChar :: backtickChar :: backtickChar :: '\n' :: l) =
        some 0 := by
    rw [findSub, if_pos]
    rw [hfence]
    simp [List.isPrefixOf]
  have h2 : findSub "```".data ('\n' :: l) = none := by
    rw [hfence]
    exact findSub_cons_none backtickChar [backtickChar, backtickChar]
      ('\n' :: l) (by
        intro d hd
        rcases List.mem_cons.mp hd with hx | hx
        · subst hx; decide
        · exact h d hx)
  rw [removeFencedBlocks]
  rw [h1]
  simp only [List.drop_succ_cons, List.drop_zero]
  rw [h2]

theorem scanHashtags_fence (c : Char) (rest : List Char)
    (hc : isTagStartChar c = true)
    (hrest : ∀ d ∈ rest, isTagBodyChar d = true) :
    scanHashtags true (backtickChar :: backtickChar :: backtickChar ::
        '\n' :: '#' :: c :: rest) = [c :: rest] := by
  have htake := takeWhile_all isTagBodyChar rest hrest
  have hm1 : hashMatchLen true (backtickChar :: backtickChar ::
      backtickChar :: '\n' :: '#' :: c :: rest) = none := by
    simp [hashMatchLen, hashMatchAlt, backtickChar]
  have hm2 : hashMatchLen false (backtickChar :: backtickChar ::
      '\n' :: '#' :: c :: rest) = none := by
    simp [hashMatchLen, hashMatchAlt, backtickChar]
  have hm3 : hashMatchLen false (backtickChar ::
      '\n' :: '#' :: c :: rest) = none := by
    simp [hashMatchLen, hashMatchAlt, backtickChar]
  have hm4 : hashMatchLen false ('\n' :: '#' :: c :: rest) =
      some (c :: rest, 2 + rest.length) := by
    simp [hashMatchLen, hashMatchAlt, hc, isAlnumChar, htake]
  have hdrop : ('\n' :: '#' :: c :: rest).drop (2 + rest.length + 1) = [] := by
    apply List.drop_eq_nil_of_le
    simp
    omega
  rw [scanHashtags, hm1]
  rw [scanHashtags, hm2]
  rw [scanHashtags, hm3]
  rw [scanHashtags, hm4]
  simp only [hdrop]
  rw [scanHashtags]

/-- C6 counterexample: the input consisting of an opening triple-backtick
fence with no closing fence, followed by a hashtag, yields that tag -
the remainder of the document after an unterminated fence is *not*
treated as inside a code block. -/
theorem extractTags_unterminated_counterexample :
    extractTags (String.mk (backtickChar :: backtickChar :: backtickChar ::
        '\n' :: '#' :: 'f' :: 'o' :: 'o' :: [])) = ["foo"] := by
  simp [extractTags, removeFrontmatter, removeFencedBlocks, removeInlineCode,
    findSub, List.isPrefixOf, backtickChar, scanHashtags, hashMatchLen,
    hashMatchAlt, isAlnumChar, isTagStartChar, isTagBodyChar,
    dedupeKeepFirst]

/-- C6 amended: the fence-stripping pass of `extractTags` removes only
*paired* triple-backtick fences; an opening fence with no matching
closing fence before end of input is left in place, and tags occurring
after it are extracted as from ordinary text: for any valid tag body
`c :: rest`, the input made of an unterminated fence followed by the
hashtag yields exactly that (lowercased) tag. -/
theorem extractTags_unterminated_fence (c : Char) (rest : List Char)
    (hc : isTagStartChar c = true)
    (hrest : ∀ d ∈ rest, isTagBodyChar d = true) :
    extractTags (String.mk (backtickChar :: backtickChar :: backtickChar ::
        '\n' :: '#' :: c :: rest)) =
      [String.mk (Char.toLower c :: rest.map Char.toLower)] := by
  have hnb : ∀ d ∈ '#' :: c :: rest, d ≠ backtickChar := by
    intro d hd
    rcases List.mem_cons.mp hd with hx | hx
    · subst hx; decide
    · rcases List.mem_cons.mp hx with hy | hy
      · subst hy
        exact (tagStartChar_ne _ hc).1
      · exact (tagBodyChar_ne d (hrest d hy)).1
  unfold extractTags
  rw [show (String.mk (backtickChar :: backtickChar :: backtickChar ::
      '\n' :: '#' :: c :: rest)).data = backtickChar :: backtickChar ::
      backtickChar :: '\n' :: '#' :: c :: rest from rfl]
  rw [removeFrontmatter_fence, removeFencedBlocks_unterminated _ hnb,
    removeInlineCode_fence _ hnb]
  simp [scanHashtags_fence c rest hc hrest, dedupeKeepFirst]

end Noteban

namespace Noteban

theorem extractTags_unterminated_fence_witness :
    extractTags (String.mk (backtickChar :: backtickChar :: backtickChar ::
        '\n' :: '#' :: 'F' :: 'o' :: 'o' :: [])) =
      [String.mk (Char.toLower 'F' :: ['o', 'o'].map Char.toLower)] :=
  extractTags_unterminated_fence 'F' ['o', 'o'] (by decide) (by decide)

end Noteban

namespace Noteban

theorem stringMk_data (t : String) : String.mk t.data = t := by
  cases t
  rfl

theorem filterTagChar_not_ws (c : Char) (h : isFilterTagChar c = true) :
    c.isWhitespace = false := by
  cases hw : c.isWhitespace with
  | false => rfl
  | true =>
    have : ((c = ' ' ∨ c = '\t') ∨ c = '\r') ∨ c = '\n' := by
      simpa [Char.isWhitespace] using hw
    rcases this with ((h1 | h1) | h1) | h1 <;> rw [h1] at h <;>
      exact absurd h (by decide)

theorem filterTagChar_ne_hash (c : Char) (h : isFilterTagChar c = true) :
    c ≠ '#' := by
  intro he
  rw [he] at h
  exact absurd h (by decide)

theorem getLast?_spec {α : Type} : ∀ l : List α, l ≠ [] →
    ∃ d, l.getLast? = some d ∧ d ∈ l := by
  intro l
  induction l with
  | nil => intro h; exact absurd rfl h
  | cons c cs ih =>
    intro _
    cases hcs : cs with
    | nil => exact ⟨c, rfl, by simp⟩
    | cons d ds =>
      obtain ⟨e, he1, he2⟩ := ih (by simp [hcs])
      refine ⟨e, ?_, by simp [hcs ▸ he2]⟩
      rw [List.getLast?_cons_cons] at *
      rw [← hcs, he1]

theorem trim_eq_self (l : List Char)
    (hhead : ∀ d, l.head? = some d → d.isWhitespace = false)
    (hlast : ∀ d, l.getLast? = some d → d.isWhitespace = false) :
    trimChars l = l := by
  unfold trimChars
  have h1 : l.dropWhile Char.isWhitespace = l := by
    cases l with
    | nil => rfl
    | cons c cs =>
      rw [List.dropWhile_cons, if_neg]
      simp [hhead c rfl]
  rw [h1]
  have h2 : l.reverse.dropWhile Char.isWhitespace = l.reverse := by
    cases hr : l.reverse with
    | nil => rfl
    | cons c cs =>
      rw [List.dropWhile_cons, if_neg]
      have : l.getLast? = some c := by
        rw [← List.head?_reverse, hr]
        rfl
      simp [hlast c this]
  rw [h2, List.reverse_reverse]

theorem takeWhile_append_stop (p : Char → Bool) :
    ∀ (l1 l2 : List Char), (∀ c ∈ l1, p c = true) →
      (∀ d, l2.head? = some d → p d = false) →
      (l1 ++ l2).takeWhile p = l1 ∧ (l1 ++ l2).dropWhile p = l2 := by
  intro l1
  induction l1 with
  | nil =>
    intro l2 _ hhead
    cases l2 with
    | nil => simp
    | cons d ds =>
      simp only [List.nil_append]
      rw [List.takeWhile_cons, List.dropWhile_cons]
      simp [hhead d rfl]
  | cons c cs ih =>
    intro l2 hall hhead
    have hc := hall c (by simp)
    have := ih l2 (fun x hx => hall x (by simp [hx])) hhead
    simp only [List.cons_append]
    rw [List.takeWhile_cons, List.dropWhile_cons]
    simp [hc, this.1, this.2]

theorem scanFilterTokens_cons (acc : List Char) (c : Char) (cs : List Char) :
    scanFilterTokens acc (c :: cs) =
      if c = '#' then
        (match cs with
         | [] => []
         | d :: ds =>
           if isFilterTagChar d then
             (acc.reverse, (d :: ds).takeWhile isFilterTagChar) ::
               scanFilterTokens [] ((d :: ds).dropWhile isFilterTagChar)
           else scanFilterTokens ('#' :: acc) (d :: ds))
      else scanFilterTokens (c :: acc) cs := by
  rw [scanFilterTokens.eq_def]

theorem scanFilterTokens_skip :
    ∀ (seg : List Char) (acc rest : List Char),
      (∀ c ∈ seg, c ≠ '#') →
      scanFilterTokens acc (seg ++ rest) =
        scanFilterTokens (seg.reverse ++ acc) rest := by
  intro seg
  induction seg with
  | nil => intro acc rest _; simp
  | cons c cs ih =>
    intro acc rest h
    simp only [List.cons_append]
    rw [scanFilterTokens_cons, if_neg (h c (by simp))]
    rw [ih (c :: acc) rest (fun d hd => h d (by simp [hd]))]
    simp

theorem scanFilterTokens_tag (acc : List Char) (t : String)
    (rest : List Char)
    (ht : t.data ≠ [] ∧ ∀ c ∈ t.data, isFilterTagChar c = true)
    (hrest : ∀ d, rest.head? = some d → isFilterTagChar d = false) :
    scanFilterTokens acc ('#' :: (t.data ++ rest)) =
      (acc.reverse, t.data) :: scanFilterTokens [] rest := by
  obtain ⟨hne, hall⟩ := ht
  have hstop := takeWhile_append_stop isFilterTagChar t.data rest hall hrest
  cases hd : t.data with
  | nil => exact absurd hd hne
  | cons d ds =>
    rw [hd] at hstop
    simp only [hd, List.cons_append]
    rw [scanFilterTokens_cons, if_pos rfl]
    simp only []
    rw [if_pos (hall d (by simp [hd]))]
    rw [show d :: (ds ++ rest) = (d :: ds) ++ rest from rfl, hstop.1, hstop.2]

end Noteban

namespace Noteban

theorem scanFilterTokens_nil (acc : List Char) :
    scanFilterTokens acc [] = [] := by
  rw [scanFilterTokens.eq_def]

theorem opString_no_hash (op : TagOp) :
    ∀ c ∈ (opToString op).data, c ≠ '#' := by
  cases op <;> decide

theorem opString_tagchars (op : TagOp) :
    ∀ c ∈ (opToString op).data, isFilterTagChar c = true := by
  cases op <;> decide

theorem toStringLoop_head (ops : List TagOp) (i : Nat) (ts : List String) :
    ∀ d, (tagFilterToStringLoop ops i ts).data.head? = some d →
      isFilterTagChar d = false := by
  cases ts with
  | nil =>
    intro d hd
    simp [tagFilterToStringLoop] at hd
  | cons t ts' =>
    intro d hd
    rw [show tagFilterToStringLoop ops i (t :: ts') =
        " " ++ opToString (ops.getD (i - 1) TagOp.AND) ++ " #" ++ t ++
          tagFilterToStringLoop ops (i + 1) ts' from by
      rw [tagFilterToStringLoop]] at hd
    simp only [String.data_append] at hd
    simp only [List.cons_append, List.append_assoc, List.head?_cons] at hd
    rw [← Option.some.inj hd]
    decide

theorem scan_toStringLoop (ops : List TagOp) :
    ∀ (ts : List String) (i : Nat),
      (∀ t ∈ ts, t.data ≠ [] ∧ ∀ c ∈ t.data, isFilterTagChar c = true) →
      1 ≤ i → i + ts.length ≤ ops.length + 1 →
      scanFilterTokens [] ((tagFilterToStringLoop ops i ts).data) =
        ((ops.drop (i - 1)).zip ts).map
          (fun p => (' ' :: (opToString p.1).data ++ [' '], p.2.data)) := by
  intro ts
  induction ts with
  | nil =>
    intro i _ _ _
    rw [show tagFilterToStringLoop ops i [] = "" from rfl]
    rw [show ("" : String).data = [] from rfl, scanFilterTokens_nil]
    simp
  | cons t ts' ih =>
    intro i hvalid hi hlen
    have hidx : i - 1 < ops.length := by
      simp only [List.length_cons] at hlen
      omega
    have hdrop : ops.drop (i - 1) = ops[i - 1] :: ops.drop i := by
      have h1 : i - 1 + 1 = i := by omega
      rw [List.drop_eq_getElem_cons hidx, h1]
    have hgetD : ops.getD (i - 1) TagOp.AND = ops[i - 1] := by
      simp [List.getD_eq_getElem?_getD, List.getElem?_eq_getElem hidx]
    rw [show tagFilterToStringLoop ops i (t :: ts') =
        " " ++ opToString (ops.getD (i - 1) TagOp.AND) ++ " #" ++ t ++
          tagFilterToStringLoop ops (i + 1) ts' from by
      rw [tagFilterToStringLoop]]
    simp only [String.data_append]
    have hre : (([' '] ++ (opToString (ops.getD (i - 1) TagOp.AND)).data ++
        [' ', '#'] ++ t.data ++
          (tagFilterToStringLoop ops (i + 1) ts').data) : List Char) =
        (' ' :: (opToString (ops.getD (i - 1) TagOp.AND)).data ++ [' ']) ++
          ('#' :: (t.data ++
            (tagFilterToStringLoop ops (i + 1) ts').data)) := by
      simp
    rw [hre]
    rw [scanFilterTokens_skip _ [] _ (by
      intro c hc
      rcases List.mem_cons.mp hc with h1 | h1
      · subst h1; decide
      · rcases List.mem_append.mp h1 with h2 | h2
        · exact opString_no_hash _ c h2
        · simp at h2
          subst h2
          decide)]
    rw [List.append_nil]
    rw [scanFilterTokens_tag _ t _ (hvalid t (by simp))
      (toStringLoop_head ops (i + 1) ts')]
    rw [List.reverse_reverse]
    rw [ih (i + 1) (fun u hu => hvalid u (by simp [hu])) (by omega) (by
      simp only [List.length_cons] at hlen
      omega)]
    simp only [Nat.add_sub_cancel, hdrop, hgetD, List.zip_cons_cons,
      List.map_cons]

end Noteban

namespace Noteban

theorem toStringLoop_ne_nil (ops : List TagOp) (i : Nat) (t : String)
    (ts' : List String) :
    (tagFilterToStringLoop ops i (t :: ts')).data ≠ [] := by
  rw [show tagFilterToStringLoop ops i (t :: ts') =
      " " ++ opToString (ops.getD (i - 1) TagOp.AND) ++ " #" ++ t ++
        tagFilterToStringLoop ops (i + 1) ts' from by
    rw [tagFilterToStringLoop]]
  simp [String.data_append]

theorem toStringLoop_last (ops : List TagOp) :
    ∀ (ts : List String) (i : Nat), ts ≠ [] →
      (∀ t ∈ ts, t.data ≠ [] ∧ ∀ c ∈ t.data, isFilterTagChar c = true) →
      ∀ d, (tagFilterToStringLoop ops i ts).data.getLast? = some d →
        isFilterTagChar d = true := by
  intro ts
  induction ts with
  | nil => intro i h; exact absurd rfl h
  | cons t ts' ih =>
    intro i _ hvalid d hd
    rw [show tagFilterToStringLoop ops i (t :: ts') =
        " " ++ opToString (ops.getD (i - 1) TagOp.AND) ++ " #" ++ t ++
          tagFilterToStringLoop ops (i + 1) ts' from by
      rw [tagFilterToStringLoop]] at hd
    simp only [String.data_append] at hd
    cases hts' : ts' with
    | nil =>
      rw [hts'] at hd
      rw [show tagFilterToStringLoop ops (i + 1) [] = "" from rfl] at hd
      rw [show ("" : String).data = [] from rfl, List.append_nil] at hd
      obtain ⟨hne, hall⟩ := hvalid t (by simp)
      rw [List.getLast?_append_of_ne_nil _ hne] at hd
      obtain ⟨e, he1, he2⟩ := getLast?_spec t.data hne
      rw [he1] at hd
      rw [← Option.some.inj hd]
      exact hall e he2
    | cons u us =>
      rw [hts'] at hd
      rw [List.getLast?_append_of_ne_nil _
        (toStringLoop_ne_nil ops (i + 1) u us)] at hd
      exact ih (i + 1) (by simp [hts'])
        (fun v hv => hvalid v (List.mem_cons_of_mem t hv)) d (hts' ▸ hd)

theorem inferOp_opString (op : TagOp) :
    inferOp (' ' :: (opToString op).data ++ [' ']) = op := by
  cases op <;> decide

theorem firstOcc_nodup :
    ∀ (l seen : List String), l.Nodup →
      (∀ u ∈ l, seen.contains u = false) →
      firstOccurrencesAux seen l = l := by
  intro l
  induction l with
  | nil => intro seen _ _; rfl
  | cons t l' ih =>
    intro seen hnd hseen
    rw [firstOccurrencesAux, if_neg (by rw [hseen t (by simp)]; simp)]
    rw [ih (seen ++ [t]) (List.nodup_cons.mp hnd).2 (by
      intro u hu
      have h1 := hseen u (by simp [hu])
      simp at h1
      have h2 : u ≠ t := by
        intro he
        exact (List.nodup_cons.mp hnd).1 (he ▸ hu)
      simp [h1, h2])]

theorem surviving_nodup :
    ∀ (ops : List TagOp) (ts seen : List String),
      ops.length = ts.length → ts.Nodup →
      (∀ u ∈ ts, seen.contains u = false) →
      survivingOps seen (ops.zip ts) = ops := by
  intro ops
  induction ops with
  | nil => intro ts seen _ _ _; simp [survivingOps]
  | cons o os ih =>
    intro ts seen hlen hnd hseen
    cases ts with
    | nil => simp at hlen
    | cons u us =>
      simp only [List.zip_cons_cons, survivingOps]
      rw [if_neg (by rw [hseen u (by simp)]; simp)]
      congr 1
      exact ih us (seen ++ [u]) (by simpa using hlen)
        (List.nodup_cons.mp hnd).2 (by
          intro v hv
          have h1 := hseen v (by simp [hv])
          simp at h1
          have h2 : v ≠ u := by
            intro he
            exact (List.nodup_cons.mp hnd).1 (he ▸ hv)
          simp [h1, h2])

end Noteban

namespace Noteban

/-- C10: for every `TagFilter` whose tag list is non-empty and
duplicate-free, whose every tag is a non-empty string over the word
characters (letters, digits, underscore) and hyphen, and whose operator
list has exactly one operator per adjacent tag pair,
`parseTagFilterExpression (tagFilterToString filter)` returns exactly the
input filter: same tags in the same order and the same operators. -/
theorem parse_toString_roundtrip (f : TagFilter)
    (h1 : f.tags ≠ []) (h2 : f.tags.Nodup)
    (h3 : ∀ t ∈ f.tags, t.data ≠ [] ∧ ∀ c ∈ t.data, isFilterTagChar c = true)
    (h4 : f.operators.length = f.tags.length - 1) :
    parseTagFilterExpression (tagFilterToString f) = some f := by
  obtain ⟨tags, ops⟩ := f
  cases tags with
  | nil => exact absurd rfl h1
  | cons t0 ts =>
    simp only at h2 h3 h4 ⊢
    have hlen : ops.length = ts.length := by
      simp only [List.length_cons] at h4
      omega
    have hdata : (tagFilterToString ⟨t0 :: ts, ops⟩).data =
        '#' :: (t0.data ++ (tagFilterToStringLoop ops 1 ts).data) := by
      rw [show tagFilterToString ⟨t0 :: ts, ops⟩ =
        "#" ++ t0 ++ tagFilterToStringLoop ops 1 ts from rfl]
      simp [String.data_append]
    have htrim : trimChars (tagFilterToString ⟨t0 :: ts, ops⟩).data =
        '#' :: (t0.data ++ (tagFilterToStringLoop ops 1 ts).data) := by
      rw [hdata]
      apply trim_eq_self
      · intro d hd
        rw [List.head?_cons] at hd
        rw [← Option.some.inj hd]
        decide
      · intro d hd
        cases hcase : ts with
        | nil =>
          rw [hcase] at hd
          rw [show tagFilterToStringLoop ops 1 [] = "" from rfl] at hd
          rw [show ("" : String).data = [] from rfl, List.append_nil] at hd
          obtain ⟨hne, hall⟩ := h3 t0 (by simp)
          rw [show ('#' :: t0.data) = ['#'] ++ t0.data from rfl,
            List.getLast?_append_of_ne_nil _ hne] at hd
          obtain ⟨e, he1, he2⟩ := getLast?_spec t0.data hne
          rw [he1] at hd
          rw [← Option.some.inj hd]
          exact filterTagChar_not_ws e (hall e he2)
        | cons u us =>
          rw [hcase] at hd
          have hne := toStringLoop_ne_nil ops 1 u us
          rw [show ('#' :: (t0.data ++
              (tagFilterToStringLoop ops 1 (u :: us)).data))
              = ('#' :: t0.data) ++
                (tagFilterToStringLoop ops 1 (u :: us)).data
              from by simp, List.getLast?_append_of_ne_nil _ hne] at hd
          exact filterTagChar_not_ws d
            (toStringLoop_last ops (u :: us) 1 (by simp)
              (fun v hv => h3 v (by
                rw [hcase]
                exact List.mem_cons_of_mem t0 hv)) d hd)
    have hscan : scanFilterTokens [] ('#' :: (t0.data ++
        (tagFilterToStringLoop ops 1 ts).data)) =
        ([], t0.data) :: ((ops.zip ts).map
          (fun p => (' ' :: (opToString p.1).data ++ [' '], p.2.data))) := by
      rw [scanFilterTokens_tag [] t0 _ (h3 t0 (by simp))
        (toStringLoop_head ops 1 ts)]
      rw [scan_toStringLoop ops ts 1
        (fun u hu => h3 u (by simp [hu])) (by omega) (by omega)]
      rfl
    have hmt : ((ops.zip ts).map
        (fun p => (' ' :: (opToString p.1).data ++ [' '], p.2.data))).map
          (fun p => String.mk p.2) = ts := by
      rw [List.map_map]
      rw [show ((fun p : List Char × List Char => String.mk p.2) ∘
          (fun p : TagOp × String =>
            (' ' :: (opToString p.1).data ++ [' '], p.2.data))) =
          fun p : TagOp × String => p.2 from by
        funext p
        simp [stringMk_data]]
      exact List.map_snd_zip ops ts (le_of_eq hlen.symm)
    have hmo : ((ops.zip ts).map
        (fun p => (' ' :: (opToString p.1).data ++ [' '], p.2.data))).map
          (fun p => inferOp p.1) = ops := by
      rw [List.map_map]
      rw [show ((fun p : List Char × List Char => inferOp p.1) ∘
          (fun p : TagOp × String =>
            (' ' :: (opToString p.1).data ++ [' '], p.2.data))) =
          fun p : TagOp × String => p.1 from by
        funext p
        exact inferOp_opString p.1]
      exact List.map_fst_zip ops ts (le_of_eq hlen)
    have hraw : rawTagsOps ('#' :: (t0.data ++
        (tagFilterToStringLoop ops 1 ts).data)) = (t0 :: ts, ops) := by
      unfold rawTagsOps
      rw [hscan]
      simp only [hmt, hmo, stringMk_data]
    have hfo : firstOccurrences (t0 :: ts) = t0 :: ts := by
      unfold firstOccurrences
      rw [firstOccurrencesAux, if_neg (by simp)]
      simp only [List.nil_append]
      rw [firstOcc_nodup ts [t0] (List.nodup_cons.mp h2).2 (by
        intro u hu
        have hut : u ≠ t0 := fun he => (List.nodup_cons.mp h2).1 (he ▸ hu)
        simp [hut])]
    have hsv : survivingOps [t0] (ops.zip ts) = ops :=
      surviving_nodup ops ts [t0] hlen (List.nodup_cons.mp h2).2 (by
        intro u hu
        have hut : u ≠ t0 := fun he => (List.nodup_cons.mp h2).1 (he ▸ hu)
        simp [hut])
    unfold parseTagFilterExpression
    rw [htrim]
    rw [if_neg (by simp)]
    rw [hraw]
    simp only []
    rw [dedupLoop_entry ops t0 ts (le_of_eq hlen.symm)]
    simp [hfo, hsv]

theorem parse_toString_roundtrip_witness :
    parseTagFilterExpression
        (tagFilterToString ⟨["a", "b"], [TagOp.OR]⟩) =
      some ⟨["a", "b"], [TagOp.OR]⟩ :=
  parse_toString_roundtrip ⟨["a", "b"], [TagOp.OR]⟩ (by simp) (by simp)
    (by
      intro t ht
      rcases List.mem_cons.mp ht with h | h
      · subst h; decide
      · simp at h; subst h; decide)
    (by simp)

end Noteban
